import Mathlib

/-!
Verification of the Rubik's-cube core of this repository: the `CubeState`
sticker model and move application, the iterative-deepening `CubeSolver`
search, and the move-sequence optimizer.

Embedding conventions:
* JavaScript strings are shallowly embedded as `List Char` (abbreviated
  `Str`); `split`/`join`/`trim` become explicit list operations with the
  same observable behaviour on the inputs the code produces.
* Methods that mutate `this` become functions returning the updated value.
* Code paths that throw a `TypeError` in JavaScript (an `undefined` face
  lookup from a malformed move token) are modelled by `Option`, with
  `none` standing for the raised fault.
* `Math.random()` outcomes are passed in explicitly as finite lists of
  draws (`Fin 6` for face picks, `Fin 3` for modifier picks).
-/

/-- JavaScript strings, embedded as lists of characters. -/
abbrev Str := List Char

/-- The apostrophe character used by the counter-clockwise move modifier. -/
def apos : Char := Char.ofNat 39

/-- The nine stickers of one face, indices 0-8 in reading order
(top-left to bottom-right), as in the `CubeState` constructor. -/
structure FaceStickers where
  s0 : Char
  s1 : Char
  s2 : Char
  s3 : Char
  s4 : Char
  s5 : Char
  s6 : Char
  s7 : Char
  s8 : Char
deriving DecidableEq

/-- The six faces `U D F B L R` of `this.faces`. -/
structure Faces where
  U : FaceStickers
  D : FaceStickers
  F : FaceStickers
  B : FaceStickers
  L : FaceStickers
  R : FaceStickers
deriving DecidableEq

/-- A `CubeState`: the 54-sticker configuration plus the recorded
`moveHistory`. -/
structure CubeState where
  faces : Faces
  moveHistory : List Str
deriving DecidableEq

/-- The six face names, as an enumeration (the valid keys of `this.faces`). -/
inductive FaceId where
  | U
  | D
  | F
  | B
  | L
  | R
deriving DecidableEq, Fintype

/-- A face filled with a single colour, as in `Array(9).fill(c)`. -/
def fillFace (c : Char) : FaceStickers :=
  ⟨c, c, c, c, c, c, c, c, c⟩

/-- The solved `faces` assignment built by the `CubeState` constructor:
U white, D yellow, F green, B blue, L orange, R red. -/
def initFaces : Faces :=
  ⟨fillFace 'W', fillFace 'Y', fillFace 'G', fillFace 'B', fillFace 'O', fillFace 'R'⟩

/-- A freshly constructed `CubeState`: solved faces, empty history. -/
def CubeState.initial : CubeState :=
  ⟨initFaces, []⟩

/-- Model of `clone()`: a copy of `faces` and `moveHistory`.  In the value-level
embedding the deep copy is the identity on the data. -/
def CubeState.clone (c : CubeState) : CubeState :=
  ⟨c.faces, c.moveHistory⟩

/-- The `every(c => c === color)` test over one face: all nine stickers equal the
sticker at index 0. -/
def FaceStickers.uniform (f : FaceStickers) : Bool :=
  (f.s0 == f.s0) && (f.s1 == f.s0) && (f.s2 == f.s0) && (f.s3 == f.s0) &&
  (f.s4 == f.s0) && (f.s5 == f.s0) && (f.s6 == f.s0) && (f.s7 == f.s0) &&
  (f.s8 == f.s0)

/-- The `isSolved()` test on the sticker configuration: every face is uniform. -/
def Faces.solvedB (fs : Faces) : Bool :=
  fs.U.uniform && fs.D.uniform && fs.F.uniform && fs.B.uniform &&
  fs.L.uniform && fs.R.uniform

/-- The `isSolved()` method. -/
def CubeState.isSolved (c : CubeState) : Bool :=
  c.faces.solvedB

/-- Model of `rotateFaceClockwise`: the fixed clockwise permutation of a 3x3 grid
(`f[0]=temp[6]; f[1]=temp[3]; ...`). -/
def rotateFaceClockwise (f : FaceStickers) : FaceStickers :=
  ⟨f.s6, f.s3, f.s0, f.s7, f.s4, f.s1, f.s8, f.s5, f.s2⟩

/-- Model of `applySingleMove(face)`: one clockwise quarter turn.  The JavaScript
body first rotates the turned face in place and then performs the four
belt assignments; every belt source is read before it is overwritten and
the turned face is not part of the belt, so the sequential assignments
equal the simultaneous update written here (each line below mirrors one
assignment line of the `switch`). -/
def applySingleMove (face : FaceId) (fs : Faces) : Faces :=
  match face with
  | .U =>
    { fs with
      U := rotateFaceClockwise fs.U
      F := { fs.F with s0 := fs.R.s0, s1 := fs.R.s1, s2 := fs.R.s2 }
      R := { fs.R with s0 := fs.B.s0, s1 := fs.B.s1, s2 := fs.B.s2 }
      B := { fs.B with s0 := fs.L.s0, s1 := fs.L.s1, s2 := fs.L.s2 }
      L := { fs.L with s0 := fs.F.s0, s1 := fs.F.s1, s2 := fs.F.s2 } }
  | .D =>
    { fs with
      D := rotateFaceClockwise fs.D
      F := { fs.F with s6 := fs.L.s6, s7 := fs.L.s7, s8 := fs.L.s8 }
      L := { fs.L with s6 := fs.B.s6, s7 := fs.B.s7, s8 := fs.B.s8 }
      B := { fs.B with s6 := fs.R.s6, s7 := fs.R.s7, s8 := fs.R.s8 }
      R := { fs.R with s6 := fs.F.s6, s7 := fs.F.s7, s8 := fs.F.s8 } }
  | .F =>
    { fs with
      F := rotateFaceClockwise fs.F
      U := { fs.U with s6 := fs.L.s8, s7 := fs.L.s5, s8 := fs.L.s2 }
      L := { fs.L with s2 := fs.D.s0, s5 := fs.D.s1, s8 := fs.D.s2 }
      D := { fs.D with s0 := fs.R.s6, s1 := fs.R.s3, s2 := fs.R.s0 }
      R := { fs.R with s0 := fs.U.s6, s3 := fs.U.s7, s6 := fs.U.s8 } }
  | .B =>
    { fs with
      B := rotateFaceClockwise fs.B
      U := { fs.U with s0 := fs.R.s2, s1 := fs.R.s5, s2 := fs.R.s8 }
      R := { fs.R with s2 := fs.D.s8, s5 := fs.D.s7, s8 := fs.D.s6 }
      D := { fs.D with s6 := fs.L.s0, s7 := fs.L.s3, s8 := fs.L.s6 }
      L := { fs.L with s0 := fs.U.s2, s3 := fs.U.s1, s6 := fs.U.s0 } }
  | .L =>
    { fs with
      L := rotateFaceClockwise fs.L
      U := { fs.U with s0 := fs.B.s8, s3 := fs.B.s5, s6 := fs.B.s2 }
      B := { fs.B with s2 := fs.D.s6, s5 := fs.D.s3, s8 := fs.D.s0 }
      D := { fs.D with s0 := fs.F.s0, s3 := fs.F.s3, s6 := fs.F.s6 }
      F := { fs.F with s0 := fs.U.s0, s3 := fs.U.s3, s6 := fs.U.s6 } }
  | .R =>
    { fs with
      R := rotateFaceClockwise fs.R
      U := { fs.U with s2 := fs.F.s2, s5 := fs.F.s5, s8 := fs.F.s8 }
      F := { fs.F with s2 := fs.D.s2, s5 := fs.D.s5, s8 := fs.D.s8 }
      D := { fs.D with s2 := fs.B.s6, s5 := fs.B.s3, s8 := fs.B.s0 }
      B := { fs.B with s0 := fs.U.s8, s3 := fs.U.s5, s6 := fs.U.s2 } }

/-- The valid keys of `this.faces`; any other first character of a move
token makes `this.faces[face]` come out `undefined` and the subsequent
indexing throw. -/
def parseFace : Char → Option FaceId
  | 'U' => some .U
  | 'D' => some .D
  | 'F' => some .F
  | 'B' => some .B
  | 'L' => some .L
  | 'R' => some .R
  | _ => none

/-- The clockwise-quarter-turn count of a modifier in `applyMove`:
`'` gives 3, `2` gives 2, anything else falls through to 1. -/
def moveTimes (modifier : Str) : Nat :=
  if modifier = [apos] then 3
  else if modifier = ['2'] then 2
  else 1

/-- The `applyMove` effect restricted to the sticker configuration: parse the face
from the first character (a `TypeError`, modelled as `none`, when it is
not a valid face key), then apply `times` single clockwise turns. -/
def applyMoveFaces (move : Str) (fs : Faces) : Option Faces :=
  match move.head? with
  | none => none
  | some ch =>
    match parseFace ch with
    | none => none
    | some f => some ((applySingleMove f)^[moveTimes (move.drop 1)] fs)

/-- Model of `applyMove(move, recordHistory)`: update the faces and, when
requested, push the raw token onto `moveHistory`. -/
def CubeState.applyMove (c : CubeState) (move : Str) (recordHistory : Bool) :
    Option CubeState :=
  match applyMoveFaces move c.faces with
  | none => none
  | some fs =>
    some ⟨fs, if recordHistory then c.moveHistory ++ [move] else c.moveHistory⟩

/-- Maximal runs of non-separator characters, dropping empties: the
common behaviour of `trim().split(/\s+/).filter(m => m)` (with the
whitespace separator) and `split(' ').filter(m => m)` (with the
single-space separator).  `acc` holds the reversed current token. -/
def splitTokensAux (isSep : Char → Bool) : Str → Str → List Str
  | [], acc => if acc = [] then [] else [acc.reverse]
  | ch :: rest, acc =>
    if isSep ch then
      if acc = [] then splitTokensAux isSep rest []
      else acc.reverse :: splitTokensAux isSep rest []
    else splitTokensAux isSep rest (ch :: acc)

/-- Tokenize on a separator class, dropping empty tokens. -/
def splitTokens (isSep : Char → Bool) (s : Str) : List Str :=
  splitTokensAux isSep s []

/-- Model of `Array.prototype.join(sep)` for a one-character separator. -/
def joinSep (sp : Char) : List Str → Str
  | [] => []
  | [m] => m
  | m :: m' :: ms => m ++ sp :: joinSep sp (m' :: ms)

/-- The loop body of `applyMoves`: apply each token in order, a fault
propagating out. -/
def applyTokens : List Str → Bool → CubeState → Option CubeState
  | [], _, c => some c
  | m :: ms, rh, c =>
    match c.applyMove m rh with
    | none => none
    | some c' => applyTokens ms rh c'

/-- Model of `applyMoves(moves, recordHistory)`: split on whitespace, filter
empty tokens, apply each in order. -/
def CubeState.applyMoves (c : CubeState) (moves : Str) (recordHistory : Bool) :
    Option CubeState :=
  applyTokens (splitTokens Char.isWhitespace moves) recordHistory c

/-- Model of `invertMove` (static): `'` maps to the bare face, `2` is
self-inverse, anything else (a quarter turn) gains a `'`. -/
def CubeState.invertMove (move : Str) : Str :=
  let modifier := move.drop 1
  if modifier = [apos] then move.take 1
  else if modifier = ['2'] then move
  else move.take 1 ++ [apos]

/-- Model of `invertMoves` (static): split, reverse, invert each token, join. -/
def CubeState.invertMoves (moves : Str) : Str :=
  joinSep ' ' (((splitTokens Char.isWhitespace moves).reverse).map CubeState.invertMove)

/-- The face pool of `generateScramble`. -/
def faceChars : List Char := ['U', 'D', 'F', 'B', 'L', 'R']

/-- The modifier pool of `generateScramble`: none, `'`, `2`. -/
def modifierStrs : List Str := [[], [apos], ['2']]

/-- The `opposites` table (shared by `isOppositeFace` and the solver's
redundancy check); an unknown key looks up to `undefined`, here `none`. -/
def oppositeChar : Char → Option Char
  | 'U' => some 'D'
  | 'D' => some 'U'
  | 'F' => some 'B'
  | 'B' => some 'F'
  | 'L' => some 'R'
  | 'R' => some 'L'
  | _ => none

/-- Model of `isOppositeFace(face1, face2)`: `opposites[face1] === face2`.  The
arguments are the one-character face strings of the scramble loop (or
the initial empty strings, for which the lookup is `undefined` and the
comparison false). -/
def isOppositeFace (face1 face2 : Str) : Bool :=
  match face1 with
  | [ch] =>
    match oppositeChar ch with
    | some o => face2 = [o]
    | none => false
  | _ => false

/-- Model of `faces[Math.floor(Math.random() * 6)]`: the face picked by one draw. -/
def faceAt (d : Fin 6) : Char :=
  faceChars.get (Fin.cast (by rfl) d)

/-- Model of `modifiers[Math.floor(Math.random() * 3)]`: the modifier picked by
one draw. -/
def modAt (m : Fin 3) : Str :=
  modifierStrs.get (Fin.cast (by rfl) m)

/-- The `do ... while` retry loop of `generateScramble`: consume face
draws until one differs from `lastFace` and is not a forbidden
opposite-sandwich repeat; `none` when the supplied draws run out. -/
def drawFace : List (Fin 6) → Str → Str → Option (Str × List (Fin 6))
  | [], _, _ => none
  | d :: rest, lastFace, secondLastFace =>
    let face : Str := [faceAt d]
    if face = lastFace || (face = secondLastFace && isOppositeFace lastFace secondLastFace) then
      drawFace rest lastFace secondLastFace
    else some (face, rest)

/-- The `for` loop of `generateScramble`: build the token list, threading
`lastFace` and `secondLastFace` exactly as the JavaScript does. -/
def scrambleGo : Nat → List (Fin 6) → List (Fin 3) → Str → Str → Option (List Str)
  | 0, _, _, _, _ => some []
  | n + 1, fd, md, lastFace, secondLastFace =>
    match drawFace fd lastFace secondLastFace with
    | none => none
    | some (face, fd') =>
      match md with
      | [] => none
      | m :: md' =>
        match scrambleGo n fd' md' face lastFace with
        | none => none
        | some tl => some ((face ++ modAt m) :: tl)

/-- Model of `generateScramble(length)` (static), with the random outcomes passed
in as explicit draw lists. -/
def CubeState.generateScramble (len : Nat) (fd : List (Fin 6)) (md : List (Fin 3)) :
    Option Str :=
  (scrambleGo len fd md [] []).map (joinSep ' ')

/-- The solver's fixed move list (`this.moves` in the constructor). -/
def CubeSolver.moves : List Str :=
  [['U'], ['U', apos], ['U', '2'],
   ['D'], ['D', apos], ['D', '2'],
   ['F'], ['F', apos], ['F', '2'],
   ['B'], ['B', apos], ['B', '2'],
   ['L'], ['L', apos], ['L', '2'],
   ['R'], ['R', apos], ['R', '2']]

/-- A well-formed move token: a face letter followed by an optional `'`
or `2` modifier, i.e. one of the solver's 18 moves. -/
def WFMove (m : Str) : Prop :=
  m ∈ CubeSolver.moves

instance (m : Str) : Decidable (WFMove m) := by
  unfold WFMove
  infer_instance

/-- Model of `getCenterColor(face)`: the fixed solved colour of a face. -/
def CubeSolver.getCenterColor : FaceId → Char
  | .U => 'W'
  | .D => 'Y'
  | .F => 'G'
  | .B => 'B'
  | .L => 'O'
  | .R => 'R'

/-- The stickers of a face as a list, in index order. -/
def FaceStickers.sticks (f : FaceStickers) : List Char :=
  [f.s0, f.s1, f.s2, f.s3, f.s4, f.s5, f.s6, f.s7, f.s8]

/-- Wrong facelets on one face: stickers differing from the face's fixed
solved colour. -/
def wrongOnFace (fid : FaceId) (f : FaceStickers) : Nat :=
  (f.sticks.filter (fun col => col != CubeSolver.getCenterColor fid)).length

/-- Model of `estimateMoves(state)`: total wrong facelets over all six faces,
divided by 12 (floor). -/
def CubeSolver.estimateMoves (c : CubeState) : Nat :=
  (wrongOnFace .U c.faces.U + wrongOnFace .D c.faces.D + wrongOnFace .F c.faces.F +
   wrongOnFace .B c.faces.B + wrongOnFace .L c.faces.L + wrongOnFace .R c.faces.R) / 12

/-- Model of `isRedundantMove(move, lastMove)`: same face, or opposite faces with
the later face letter alphabetically greater. -/
def CubeSolver.isRedundantMove (move lastMove : Str) : Bool :=
  if move.head? = lastMove.head? then true
  else
    match move.head?, lastMove.head? with
    | some f, some lf => decide (oppositeChar f = some lf) && decide (lf < f)
    | _, _ => false

/-- Model of `solution ? solution + ' ' + move : move`. -/
def appendMove (solution move : Str) : Str :=
  if solution = [] then move else solution ++ ' ' :: move

/-- The move loop of `search`, parameterized by the depth-(d) search
function used for the recursive call: skip redundant moves, clone and
apply, recurse, return the first success. -/
def searchMovesWith (searchD : CubeState → Str → Option Str → Option Str) :
    List Str → CubeState → Str → Option Str → Option Str
  | [], _, _, _ => none
  | mv :: rest, state, solution, lastMove =>
    if (match lastMove with
        | some lm => CubeSolver.isRedundantMove mv lm
        | none => false) then
      searchMovesWith searchD rest state solution lastMove
    else
      match state.applyMove mv false with
      | none => none
      | some newState =>
        match searchD newState (appendMove solution mv) (some mv) with
        | some result => some result
        | none => searchMovesWith searchD rest state solution lastMove

/-- Model of `search(state, depth, solution, lastMove)`: depth-limited search.
At depth 0 succeed exactly on a solved state; otherwise prune when the
heuristic estimate exceeds the remaining depth, then iterate the 18
moves (the depth argument comes first here so the recursion is
structural on it). -/
def CubeSolver.search : Nat → CubeState → Str → Option Str → Option Str
  | 0, state, solution, _ => if state.isSolved then some solution else none
  | d + 1, state, solution, lastMove =>
    if CubeSolver.estimateMoves state > d + 1 then none
    else searchMovesWith (CubeSolver.search d) CubeSolver.moves state solution lastMove

/-- The `for (let depth = 1; depth <= 20; ...)` loop of `solve`: try
depths `1..n` in increasing order on a fresh clone each time, returning
the first non-null search result. -/
def CubeSolver.searchDepths (c : CubeState) : Nat → Option Str
  | 0 => none
  | d + 1 =>
    match CubeSolver.searchDepths c d with
    | some r => some r
    | none => CubeSolver.search (d + 1) (CubeState.clone c) [] none

/-- Model of `getMoveCount(move)`: clockwise quarter-turn count of a token. -/
def CubeSolver.getMoveCount (move : Str) : Nat :=
  let modifier := move.drop 1
  if modifier = [apos] then 3
  else if modifier = ['2'] then 2
  else 1

/-- Model of `combineMoves(move1, move2)`: sum the quarter-turn counts modulo 4;
0 cancels (null), 1 is the bare face, 2 is `face2`, 3 is `face'`.  The
tokens reaching it are never empty; an empty first token is mapped to
`none` (the JavaScript would produce an unusable `undefined`-based
token there). -/
def CubeSolver.combineMoves (move1 move2 : Str) : Option Str :=
  match move1.head? with
  | none => none
  | some face =>
    let total := (CubeSolver.getMoveCount move1 + CubeSolver.getMoveCount move2) % 4
    if total = 0 then none
    else if total = 1 then some [face]
    else if total = 2 then some [face, '2']
    else some [face, apos]

/-- One left-to-right pass of `optimizeSolution`'s inner `while`:
combine each same-face adjacent pair, returning the rebuilt list and the
`changed` flag. -/
def CubeSolver.optimizePass : List Str → List Str × Bool
  | [] => ([], false)
  | [m] => ([m], false)
  | m1 :: m2 :: rest =>
    if m1.head? = m2.head? then
      let r := CubeSolver.optimizePass rest
      match CubeSolver.combineMoves m1 m2 with
      | some cmb => (cmb :: r.1, true)
      | none => (r.1, true)
    else
      let r := CubeSolver.optimizePass (m2 :: rest)
      (m1 :: r.1, r.2)

/-- The outer `while (changed)` loop, with fuel.  Each changed pass
strictly shortens the list, so fuel `moves.length` always reaches the
fixed point the JavaScript loop runs to. -/
def CubeSolver.optimizeLoop : Nat → List Str → List Str
  | 0, moves => moves
  | fuel + 1, moves =>
    let r := CubeSolver.optimizePass moves
    if r.2 then CubeSolver.optimizeLoop fuel r.1 else r.1

/-- Model of `optimizeSolution(solution)`: early-return on the empty (falsy)
string, else split on single spaces, run passes to a fixed point, join. -/
def CubeSolver.optimizeSolution (solution : Str) : Str :=
  if solution = [] then []
  else
    let moves := splitTokens (fun ch => ch == ' ') solution
    joinSep ' ' (CubeSolver.optimizeLoop moves.length moves)

/-- Model of `solve(cubeState)`: empty string when already solved; otherwise
iterative deepening to depth 20, optimizing the first solution found;
otherwise the inverted move history when one exists; otherwise the
empty string. -/
def CubeSolver.solve (c : CubeState) : Str :=
  if c.isSolved then []
  else
    match CubeSolver.searchDepths c 20 with
    | some result => CubeSolver.optimizeSolution result
    | none =>
      if c.moveHistory.length > 0 then
        CubeState.invertMoves (joinSep ' ' c.moveHistory)
      else []

/-- Token application restricted to the sticker configuration (history
does not influence the faces, see `applyTokens_faces`). -/
def applyTokensFaces : List Str → Faces → Option Faces
  | [], fs => some fs
  | m :: ms, fs =>
    match applyMoveFaces m fs with
    | none => none
    | some fs' => applyTokensFaces ms fs'

/-- Does a token start with a valid face key?  (The condition under
which `applyMove` does not throw.) -/
def validFaceTok (m : Str) : Bool :=
  match m.head? with
  | some ch => (parseFace ch).isSome
  | none => false

/-- Sum of the code points of one face's stickers (a move-invariant
measure: moves only permute stickers). -/
def FaceStickers.codeSum (f : FaceStickers) : Nat :=
  f.s0.toNat + f.s1.toNat + f.s2.toNat + f.s3.toNat + f.s4.toNat +
  f.s5.toNat + f.s6.toNat + f.s7.toNat + f.s8.toNat

/-- Sum of all 54 sticker code points. -/
def Faces.codeSum (fs : Faces) : Nat :=
  fs.U.codeSum + fs.D.codeSum + fs.F.codeSum + fs.B.codeSum + fs.L.codeSum + fs.R.codeSum

/-- The six centre stickers (index 4 of each face), which no move
operation ever writes. -/
def Faces.centers (fs : Faces) : Char × Char × Char × Char × Char × Char :=
  (fs.U.s4, fs.D.s4, fs.F.s4, fs.B.s4, fs.L.s4, fs.R.s4)

/-- A sticker configuration no move sequence can ever solve: the solved
assignment with one sticker replaced by a colour outside the palette.
Its code-point sum differs from the one a solved configuration with the
canonical centres must have. -/
def weirdFaces : Faces :=
  { initFaces with U := { fillFace 'W' with s0 := 'X' } }

/-- The unsolvable state above, with an empty move history. -/
def weirdState : CubeState :=
  ⟨weirdFaces, []⟩

/-- The scramble adjacency constraints, relative to the last and
second-to-last faces already emitted: each token's face differs from the
previous face and is not a repeat of the face two back when that face is
opposite the previous one. -/
def scrambleFacesOK : Str → Str → List Str → Prop
  | _, _, [] => True
  | lastFace, secondLastFace, mv :: rest =>
    mv.take 1 ≠ lastFace ∧
    ¬(mv.take 1 = secondLastFace ∧ isOppositeFace lastFace secondLastFace = true) ∧
    scrambleFacesOK (mv.take 1) lastFace rest

/-- The `isSolved()` method in receiver-passing style: the method reads the faces
and returns the receiver unchanged. -/
def CubeState.isSolvedM (c : CubeState) : Bool × CubeState :=
  (c.isSolved, c)

/-- The `clone()` method in receiver-passing style: builds a fresh copy, leaving
the receiver unchanged. -/
def CubeState.cloneM (c : CubeState) : CubeState × CubeState :=
  (CubeState.clone c, c)

/-- Reading `moveHistory` in receiver-passing style. -/
def CubeState.historyM (c : CubeState) : List Str × CubeState :=
  (c.moveHistory, c)

/-- The depth loop of `solve` with the caller's instance threaded
through every operation `solve` performs on it: each iteration clones
the threaded instance and searches on the clone only. -/
def CubeSolver.searchDepthsTracked (c : CubeState) : Nat → Option Str × CubeState
  | 0 => (none, c)
  | d + 1 =>
    let p := CubeSolver.searchDepthsTracked c d
    match p.1 with
    | some r => (some r, p.2)
    | none =>
      let q := CubeState.cloneM p.2
      (CubeSolver.search (d + 1) q.1 [] none, q.2)

/-- Model of `solve` with the caller's `CubeState` threaded through the calls the
body makes on it (`isSolved`, twenty `clone`s, the `moveHistory` read):
the returned second component is the caller's instance after the call. -/
def CubeSolver.solveTracked (c : CubeState) : Str × CubeState :=
  let p1 := CubeState.isSolvedM c
  if p1.1 then ([], p1.2)
  else
    let p2 := CubeSolver.searchDepthsTracked p1.2 20
    match p2.1 with
    | some result => (CubeSolver.optimizeSolution result, p2.2)
    | none =>
      let p3 := CubeState.historyM p2.2
      if p3.1.length > 0 then (CubeState.invertMoves (joinSep ' ' p3.1), p3.2)
      else ([], p3.2)

/-- States reachable from a freshly constructed `CubeState` by any
sequence of well-formed `applyMove`/`applyMoves` calls. -/
inductive Reachable : CubeState → Prop where
  | init : Reachable CubeState.initial
  | move : ∀ (c : CubeState) (mv : Str) (rh : Bool) (c' : CubeState),
      Reachable c → WFMove mv → c.applyMove mv rh = some c' → Reachable c'
  | moves : ∀ (c : CubeState) (s : Str) (rh : Bool) (c' : CubeState),
      Reachable c → (∀ m ∈ splitTokens Char.isWhitespace s, WFMove m) →
      c.applyMoves s rh = some c' → Reachable c'

/-! ### Tokenization lemmas -/

/-- Consuming a separator-free chunk moves it (reversed) into the
accumulator. -/
theorem splitTokensAux_chunk (isSep : Char → Bool) :
    ∀ (tok rest acc : Str), (∀ ch ∈ tok, isSep ch = false) →
      splitTokensAux isSep (tok ++ rest) acc =
        splitTokensAux isSep rest (tok.reverse ++ acc) := by
  intro tok
  induction tok with
  | nil => intro rest acc _; simp
  | cons ch tok ih =>
    intro rest acc hfree
    have hch : isSep ch = false := hfree ch (by simp)
    simp only [List.cons_append, splitTokensAux, hch, Bool.false_eq_true, if_false,
      List.append_eq]
    rw [ih rest (ch :: acc) (fun c hc => hfree c (by simp [hc]))]
    simp

/-- Splitting the separator-join of nonempty separator-free tokens
recovers the tokens. -/
theorem splitTokens_joinSep (isSep : Char → Bool) (sp : Char) (hsp : isSep sp = true) :
    ∀ ms : List Str, (∀ m ∈ ms, m ≠ [] ∧ ∀ ch ∈ m, isSep ch = false) →
      splitTokens isSep (joinSep sp ms) = ms := by
  intro ms
  induction ms with
  | nil => intro _; rfl
  | cons m ms ih =>
    intro h
    obtain ⟨hm, hfree⟩ := h m (by simp)
    match ms with
    | [] =>
      show splitTokensAux isSep m [] = [m]
      have hc := splitTokensAux_chunk isSep m [] [] hfree
      rw [List.append_nil] at hc
      rw [hc]
      simp [splitTokensAux, hm]
    | m' :: ms' =>
      show splitTokensAux isSep (m ++ sp :: joinSep sp (m' :: ms')) [] = m :: m' :: ms'
      rw [splitTokensAux_chunk isSep m _ [] hfree]
      simp only [List.append_nil, splitTokensAux, hsp, if_true]
      have hrev : m.reverse ≠ [] := by simpa using hm
      rw [if_neg hrev]
      have := ih (fun x hx => h x (by simp [hx]))
      simp only [splitTokens] at this
      simp [this]

/-- Every token produced by `splitTokens` is nonempty and
separator-free. -/
theorem splitTokensAux_tokens (isSep : Char → Bool) :
    ∀ (s acc : Str), (∀ ch ∈ acc, isSep ch = false) →
      ∀ m ∈ splitTokensAux isSep s acc, m ≠ [] ∧ ∀ ch ∈ m, isSep ch = false := by
  intro s
  induction s with
  | nil =>
    intro acc hacc m hm
    by_cases h : acc = []
    · simp [splitTokensAux, h] at hm
    · simp only [splitTokensAux, h, if_false] at hm
      simp only [List.mem_singleton] at hm
      subst hm
      constructor
      · simpa using h
      · intro ch hch
        exact hacc ch (List.mem_reverse.mp hch)
  | cons c rest ih =>
    intro acc hacc m hm
    simp only [splitTokensAux] at hm
    by_cases hc : isSep c = true
    · rw [if_pos hc] at hm
      by_cases h : acc = []
      · rw [if_pos h] at hm
        exact ih [] (by simp) m hm
      · rw [if_neg h] at hm
        rcases List.mem_cons.mp hm with hm | hm
        · subst hm
          exact ⟨by simpa using h, fun ch hch => hacc ch (List.mem_reverse.mp hch)⟩
        · exact ih [] (by simp) m hm
    · rw [if_neg hc] at hm
      refine ih (c :: acc) ?_ m hm
      intro ch hch
      rcases List.mem_cons.mp hch with rfl | hch
      · simpa using hc
      · exact hacc ch hch

theorem splitTokens_tokens (isSep : Char → Bool) (s : Str) :
    ∀ m ∈ splitTokens isSep s, m ≠ [] ∧ ∀ ch ∈ m, isSep ch = false :=
  splitTokensAux_tokens isSep s [] (by simp)

/-- A `joinSep` of a list starting with a nonempty token is nonempty. -/
theorem joinSep_ne_nil (sp : Char) (m : Str) (ms : List Str) (hm : m ≠ []) :
    joinSep sp (m :: ms) ≠ [] := by
  match ms with
  | [] => simpa [joinSep] using hm
  | m' :: ms' =>
    simp only [joinSep]
    intro h
    exact hm (List.append_eq_nil.mp h).1

/-! ### Quarter-turn algebra -/

/-- The face letter of a face identifier. -/
def faceIdChar : FaceId → Char
  | .U => 'U'
  | .D => 'D'
  | .F => 'F'
  | .B => 'B'
  | .L => 'L'
  | .R => 'R'

/-- Every solver move token is a face letter plus one of the three
modifiers. -/
theorem wf_shape : ∀ m ∈ CubeSolver.moves,
    ∃ f : FaceId, ∃ mod ∈ modifierStrs, m = faceIdChar f :: mod := by
  decide

/-- Conversely, every face letter plus modifier is a solver move. -/
theorem shape_wf : ∀ (f : FaceId), ∀ mod ∈ modifierStrs,
    (faceIdChar f :: mod) ∈ CubeSolver.moves := by
  decide

theorem faceIdChar_inj : ∀ f f' : FaceId, faceIdChar f = faceIdChar f' → f = f' := by
  decide

/-- Four clockwise quarter turns of the same face restore the stickers. -/
theorem applySingleMove_four (f : FaceId) (fs : Faces) :
    applySingleMove f (applySingleMove f (applySingleMove f (applySingleMove f fs))) = fs := by
  cases f <;> rfl

/-- Iterating a quarter turn is periodic with period 4. -/
theorem applySingleMove_iterate_mod (f : FaceId) :
    ∀ (n : Nat) (fs : Faces), (applySingleMove f)^[n] fs = (applySingleMove f)^[n % 4] fs := by
  intro n
  induction n using Nat.strong_induction_on with
  | _ n ih =>
    intro fs
    by_cases h : n < 4
    · rw [Nat.mod_eq_of_lt h]
    · have h4 : n = (n - 4) + 4 := by omega
      have hfour : (applySingleMove f)^[4] fs = fs := by
        show applySingleMove f (applySingleMove f (applySingleMove f (applySingleMove f fs))) = fs
        exact applySingleMove_four f fs
      rw [h4, Function.iterate_add_apply, hfour, ih (n - 4) (by omega)]
      congr 1
      omega

/-- Evaluating `applyMoveFaces` on a face letter plus modifier: iterate the single
clockwise turn `moveTimes mod` times. -/
theorem applyMoveFaces_shape (f : FaceId) (mod : Str) (fs : Faces) :
    applyMoveFaces (faceIdChar f :: mod) fs =
      some ((applySingleMove f)^[moveTimes mod] fs) := by
  cases f <;> rfl

/-- The solver's `getMoveCount` agrees with `applyMove`'s modifier
decoding. -/
theorem getMoveCount_eq_moveTimes (move : Str) :
    CubeSolver.getMoveCount move = moveTimes (move.drop 1) :=
  rfl

/-! ### Faces-level semantics of token application -/

theorem applyTokensFaces_append :
    ∀ (a b : List Str) (fs : Faces),
      applyTokensFaces (a ++ b) fs =
        match applyTokensFaces a fs with
        | none => none
        | some fs' => applyTokensFaces b fs' := by
  intro a
  induction a with
  | nil => intro b fs; rfl
  | cons m a ih =>
    intro b fs
    simp only [List.cons_append, applyTokensFaces]
    cases applyMoveFaces m fs with
    | none => rfl
    | some fs' => exact ih b fs'

/-- History recording does not influence the face configuration: token
application projects onto `applyTokensFaces`. -/
theorem applyTokens_faces :
    ∀ (ms : List Str) (rh : Bool) (c : CubeState),
      (applyTokens ms rh c).map CubeState.faces = applyTokensFaces ms c.faces := by
  intro ms
  induction ms with
  | nil => intro rh c; rfl
  | cons m ms ih =>
    intro rh c
    simp only [applyTokens, applyTokensFaces, CubeState.applyMove]
    cases h : applyMoveFaces m c.faces with
    | none => rfl
    | some fs =>
      exact ih rh ⟨fs, if rh then c.moveHistory ++ [m] else c.moveHistory⟩

theorem applyMoves_eq_applyTokens (c : CubeState) (s : Str) (rh : Bool) :
    c.applyMoves s rh = applyTokens (splitTokens Char.isWhitespace s) rh c :=
  rfl

/-- The characters of solver move tokens are never whitespace and never
a space. -/
theorem wf_chars : ∀ m ∈ CubeSolver.moves, m ≠ [] ∧
    ∀ ch ∈ m, Char.isWhitespace ch = false ∧ (ch == ' ') = false := by
  decide

/-- Applying a well-formed token never faults. -/
theorem wf_apply_some (m : Str) (hm : WFMove m) (fs : Faces) :
    ∃ fs', applyMoveFaces m fs = some fs' := by
  obtain ⟨f, mod, _, rfl⟩ := wf_shape m hm
  exact ⟨_, applyMoveFaces_shape f mod fs⟩

/-- A chain of well-formed tokens never faults. -/
theorem wf_tokens_some :
    ∀ ms : List Str, (∀ m ∈ ms, WFMove m) → ∀ fs : Faces,
      ∃ fs', applyTokensFaces ms fs = some fs' := by
  intro ms
  induction ms with
  | nil => intro _ fs; exact ⟨fs, rfl⟩
  | cons m ms ih =>
    intro h fs
    obtain ⟨fs1, h1⟩ := wf_apply_some m (h m (by simp)) fs
    obtain ⟨fs', h2⟩ := ih (fun x hx => h x (by simp [hx])) fs1
    exact ⟨fs', by simp [applyTokensFaces, h1, h2]⟩

/-- The `invertMove` function sends solver moves to solver moves. -/
theorem invertMove_wf : ∀ m ∈ CubeSolver.moves, CubeState.invertMove m ∈ CubeSolver.moves := by
  decide

/-- Iterations of the same quarter turn summing to four cancel. -/
theorem iterate_four_cancel (f : FaceId) (t t' : Nat) (h : t + t' = 4) (fs : Faces) :
    (applySingleMove f)^[t'] ((applySingleMove f)^[t] fs) = fs := by
  rw [← Function.iterate_add_apply]
  have h' : t' + t = 4 := by omega
  rw [h', applySingleMove_iterate_mod]
  simp

/-- The inverse token undoes a well-formed token on the stickers. -/
theorem invertMove_cancel (m : Str) (hm : WFMove m) (fs fs' : Faces)
    (h : applyMoveFaces m fs = some fs') :
    applyMoveFaces (CubeState.invertMove m) fs' = some fs := by
  obtain ⟨f, mod, hmod, rfl⟩ := wf_shape m hm
  rw [applyMoveFaces_shape] at h
  have hfs' : fs' = (applySingleMove f)^[moveTimes mod] fs := Option.some_inj.mp h.symm
  subst hfs'
  simp only [modifierStrs, List.mem_cons, List.mem_singleton, List.not_mem_nil,
    or_false] at hmod
  rcases hmod with rfl | rfl | rfl
  · rw [show CubeState.invertMove (faceIdChar f :: []) = faceIdChar f :: [apos] from rfl,
      applyMoveFaces_shape,
      show moveTimes [apos] = 3 from rfl, show moveTimes ([] : Str) = 1 from rfl,
      iterate_four_cancel f 1 3 (by norm_num) fs]
  · rw [show CubeState.invertMove (faceIdChar f :: [apos]) = faceIdChar f :: [] from rfl,
      applyMoveFaces_shape,
      show moveTimes [apos] = 3 from rfl, show moveTimes ([] : Str) = 1 from rfl,
      iterate_four_cancel f 3 1 (by norm_num) fs]
  · rw [show CubeState.invertMove (faceIdChar f :: ['2']) = faceIdChar f :: ['2'] from rfl,
      applyMoveFaces_shape,
      show moveTimes ['2'] = 2 from rfl,
      iterate_four_cancel f 2 2 (by norm_num) fs]

/-- The reversed, inverted token list undoes a well-formed token chain. -/
theorem tokens_inverse :
    ∀ ms : List Str, (∀ m ∈ ms, WFMove m) → ∀ fs fs' : Faces,
      applyTokensFaces ms fs = some fs' →
      applyTokensFaces ((ms.reverse).map CubeState.invertMove) fs' = some fs := by
  intro ms
  induction ms with
  | nil =>
    intro _ fs fs' h
    simp only [applyTokensFaces, Option.some_inj] at h
    simp [applyTokensFaces, h]
  | cons m ms ih =>
    intro hwf fs fs' h
    simp only [applyTokensFaces] at h
    cases h1 : applyMoveFaces m fs with
    | none => rw [h1] at h; exact absurd h (by simp)
    | some fs1 =>
      rw [h1] at h
      have hA := ih (fun x hx => hwf x (by simp [hx])) fs1 fs' h
      rw [List.reverse_cons, List.map_append, applyTokensFaces_append, hA]
      simp only [List.map_cons, List.map_nil, applyTokensFaces]
      rw [invertMove_cancel m (hwf m (by simp)) fs fs1 h1]

/-! ### Optimizer lemmas -/

/-- The `combineMoves` function on two tokens sharing a face letter, in closed form. -/
theorem combineMoves_shape (f : FaceId) (mod1 mod2 : Str) :
    CubeSolver.combineMoves (faceIdChar f :: mod1) (faceIdChar f :: mod2) =
      (if (moveTimes mod1 + moveTimes mod2) % 4 = 0 then none
       else if (moveTimes mod1 + moveTimes mod2) % 4 = 1 then some [faceIdChar f]
       else if (moveTimes mod1 + moveTimes mod2) % 4 = 2 then some [faceIdChar f, '2']
       else some [faceIdChar f, apos]) :=
  rfl

/-- Replacing a same-face adjacent pair with its combination (or with
nothing, when the turns cancel) preserves the sticker semantics. -/
theorem combineMoves_sem (m1 m2 : Str) (h1 : WFMove m1) (h2 : WFMove m2)
    (hh : m1.head? = m2.head?) (fs : Faces) :
    applyTokensFaces ((CubeSolver.combineMoves m1 m2).toList) fs =
      applyTokensFaces [m1, m2] fs := by
  obtain ⟨f, mod1, hmod1, rfl⟩ := wf_shape m1 h1
  obtain ⟨f', mod2, hmod2, rfl⟩ := wf_shape m2 h2
  have hf : f = f' := faceIdChar_inj f f' (by simpa using hh)
  subst hf
  have two : applyTokensFaces [faceIdChar f :: mod1, faceIdChar f :: mod2] fs =
      some ((applySingleMove f)^[moveTimes mod2 + moveTimes mod1] fs) := by
    simp [applyTokensFaces, applyMoveFaces_shape, Function.iterate_add_apply]
  rw [two]
  simp only [modifierStrs, List.mem_cons, List.mem_singleton, List.not_mem_nil,
    or_false] at hmod1 hmod2
  rcases hmod1 with rfl | rfl | rfl <;> rcases hmod2 with rfl | rfl | rfl <;>
    rw [applySingleMove_iterate_mod] <;> cases f <;> rfl

/-- The `combineMoves` function keeps tokens well-formed. -/
theorem combineMoves_wf (m1 m2 c : Str) (h1 : WFMove m1)
    (h : CubeSolver.combineMoves m1 m2 = some c) : WFMove c := by
  obtain ⟨f, mod1, _, rfl⟩ := wf_shape m1 h1
  simp only [CubeSolver.combineMoves, List.head?] at h
  split_ifs at h
  · obtain rfl : [faceIdChar f] = c := Option.some_inj.mp h
    exact shape_wf f [] (by decide)
  · obtain rfl : [faceIdChar f, '2'] = c := Option.some_inj.mp h
    exact shape_wf f ['2'] (by decide)
  · obtain rfl : [faceIdChar f, apos] = c := Option.some_inj.mp h
    exact shape_wf f [apos] (by decide)

/-- The `combineMoves` output tokens are nonempty and space-free whenever
the first input token is. -/
theorem combineMoves_tok (m1 m2 c : Str) (h : CubeSolver.combineMoves m1 m2 = some c)
    (h1 : m1 ≠ []) (hsp : ' ' ∉ m1) : c ≠ [] ∧ ' ' ∉ c := by
  match m1, h1 with
  | ch :: tl, _ =>
    have hch : ch ≠ ' ' := fun hc => hsp (by simp [hc])
    simp only [CubeSolver.combineMoves, List.head?] at h
    split_ifs at h
    · obtain rfl : [ch] = c := Option.some_inj.mp h
      refine ⟨by simp, fun hc => ?_⟩
      simp only [List.mem_singleton] at hc
      exact hch hc.symm
    · obtain rfl : [ch, '2'] = c := Option.some_inj.mp h
      refine ⟨by simp, fun hc => ?_⟩
      rcases List.mem_cons.mp hc with hc | hc
      · exact hch hc.symm
      · exact absurd hc (by decide)
    · obtain rfl : [ch, apos] = c := Option.some_inj.mp h
      refine ⟨by simp, fun hc => ?_⟩
      rcases List.mem_cons.mp hc with hc | hc
      · exact hch hc.symm
      · exact absurd hc (by decide)

/-- A pass that reports no change rebuilds the list unchanged. -/
theorem optimizePass_unchanged (ms : List Str)
    (h : (CubeSolver.optimizePass ms).2 = false) :
    (CubeSolver.optimizePass ms).1 = ms := by
  match ms with
  | [] => rfl
  | [m] => rfl
  | m1 :: m2 :: rest =>
    by_cases hh : m1.head? = m2.head?
    · exfalso
      simp only [CubeSolver.optimizePass, if_pos hh] at h
      cases hc : CubeSolver.combineMoves m1 m2 <;> rw [hc] at h <;> simp at h
    · simp only [CubeSolver.optimizePass, if_neg hh] at h ⊢
      have := optimizePass_unchanged (m2 :: rest) h
      simp [this]
termination_by ms.length

/-- A pass never lengthens the list, and a changed pass strictly
shortens it. -/
theorem optimizePass_length (ms : List Str) :
    (CubeSolver.optimizePass ms).1.length ≤ ms.length ∧
      ((CubeSolver.optimizePass ms).2 = true →
        (CubeSolver.optimizePass ms).1.length < ms.length) := by
  match ms with
  | [] => exact ⟨Nat.le_refl _, by intro h; simp [CubeSolver.optimizePass] at h⟩
  | [m] => exact ⟨Nat.le_refl _, by intro h; simp [CubeSolver.optimizePass] at h⟩
  | m1 :: m2 :: rest =>
    by_cases hh : m1.head? = m2.head?
    · have ih := optimizePass_length rest
      simp only [CubeSolver.optimizePass, if_pos hh]
      cases hc : CubeSolver.combineMoves m1 m2 <;> simp only [hc] <;>
        refine ⟨?_, fun _ => ?_⟩ <;> simp only [List.length_cons] <;> omega
    · have ih := optimizePass_length (m2 :: rest)
      have ih1 := ih.1
      simp only [CubeSolver.optimizePass, if_neg hh]
      refine ⟨?_, fun hch => ?_⟩
      · simp only [List.length_cons] at ih1 ⊢
        omega
      · have ih2 := ih.2 hch
        simp only [List.length_cons] at ih2 ⊢
        omega
termination_by ms.length

/-- A pass preserves well-formedness of every token. -/
theorem optimizePass_wf (ms : List Str) (hwf : ∀ m ∈ ms, WFMove m) :
    ∀ m ∈ (CubeSolver.optimizePass ms).1, WFMove m := by
  match ms with
  | [] => exact hwf
  | [m] => exact hwf
  | m1 :: m2 :: rest =>
    have hrest : ∀ m ∈ rest, WFMove m := fun x hx => hwf x (by simp [hx])
    by_cases hh : m1.head? = m2.head?
    · simp only [CubeSolver.optimizePass, if_pos hh]
      cases hc : CubeSolver.combineMoves m1 m2 with
      | none => exact optimizePass_wf rest hrest
      | some cmb =>
        intro x hx
        rcases List.mem_cons.mp hx with rfl | hx
        · exact combineMoves_wf m1 m2 x (hwf m1 (by simp)) hc
        · exact optimizePass_wf rest hrest x hx
    · simp only [CubeSolver.optimizePass, if_neg hh]
      intro x hx
      rcases List.mem_cons.mp hx with rfl | hx
      · exact hwf x (by simp)
      · exact optimizePass_wf (m2 :: rest) (fun y hy => hwf y (by simp [hy])) x hx
termination_by ms.length

/-- A pass preserves nonemptiness and space-freeness of every token. -/
theorem optimizePass_tok (ms : List Str) (htok : ∀ m ∈ ms, m ≠ [] ∧ ' ' ∉ m) :
    ∀ m ∈ (CubeSolver.optimizePass ms).1, m ≠ [] ∧ ' ' ∉ m := by
  match ms with
  | [] => exact htok
  | [m] => exact htok
  | m1 :: m2 :: rest =>
    have hrest : ∀ m ∈ rest, m ≠ [] ∧ ' ' ∉ m := fun x hx => htok x (by simp [hx])
    by_cases hh : m1.head? = m2.head?
    · simp only [CubeSolver.optimizePass, if_pos hh]
      cases hc : CubeSolver.combineMoves m1 m2 with
      | none => exact optimizePass_tok rest hrest
      | some cmb =>
        intro x hx
        rcases List.mem_cons.mp hx with rfl | hx
        · obtain ⟨h1, h1sp⟩ := htok m1 (by simp)
          exact combineMoves_tok m1 m2 x hc h1 h1sp
        · exact optimizePass_tok rest hrest x hx
    · simp only [CubeSolver.optimizePass, if_neg hh]
      intro x hx
      rcases List.mem_cons.mp hx with rfl | hx
      · exact htok x (by simp)
      · exact optimizePass_tok (m2 :: rest) (fun y hy => htok y (by simp [hy])) x hx
termination_by ms.length

/-- A pass preserves the sticker semantics of the token sequence. -/
theorem optimizePass_sem (ms : List Str) (hwf : ∀ m ∈ ms, WFMove m) (fs : Faces) :
    applyTokensFaces (CubeSolver.optimizePass ms).1 fs = applyTokensFaces ms fs := by
  match ms with
  | [] => rfl
  | [m] => rfl
  | m1 :: m2 :: rest =>
    have hrest : ∀ m ∈ rest, WFMove m := fun x hx => hwf x (by simp [hx])
    by_cases hh : m1.head? = m2.head?
    · have hsem := combineMoves_sem m1 m2 (hwf m1 (by simp)) (hwf m2 (by simp)) hh fs
      simp only [CubeSolver.optimizePass, if_pos hh]
      have hsplit : (m1 :: m2 :: rest) = [m1, m2] ++ rest := rfl
      rw [hsplit, applyTokensFaces_append]
      cases hc : CubeSolver.combineMoves m1 m2 with
      | none =>
        rw [hc] at hsem
        have h2 : applyTokensFaces [m1, m2] fs = some fs := by
          rw [← hsem]
          rfl
        simp only [hc, h2]
        exact optimizePass_sem rest hrest fs
      | some cmb =>
        rw [hc] at hsem
        have hsem' : applyTokensFaces [cmb] fs = applyTokensFaces [m1, m2] fs := hsem
        simp only [hc]
        rw [show cmb :: (CubeSolver.optimizePass rest).1 =
          [cmb] ++ (CubeSolver.optimizePass rest).1 from rfl,
          applyTokensFaces_append, hsem']
        cases applyTokensFaces [m1, m2] fs with
        | none => rfl
        | some fs' => exact optimizePass_sem rest hrest fs'
    · simp only [CubeSolver.optimizePass, if_neg hh]
      show applyTokensFaces (m1 :: (CubeSolver.optimizePass (m2 :: rest)).1) fs = _
      simp only [applyTokensFaces]
      cases applyMoveFaces m1 fs with
      | none => rfl
      | some fs1 =>
        exact optimizePass_sem (m2 :: rest) (fun y hy => hwf y (by simp [hy])) fs1
termination_by ms.length

/-- After enough fuel the pass is at a fixed point: the JavaScript
`while (changed)` loop exits exactly there. -/
theorem optimizeLoop_fix : ∀ (fuel : Nat) (ms : List Str), ms.length ≤ fuel →
    (CubeSolver.optimizePass (CubeSolver.optimizeLoop fuel ms)).2 = false := by
  intro fuel
  induction fuel with
  | zero =>
    intro ms h
    have hnil : ms = [] := List.length_eq_zero.mp (Nat.le_zero.mp h)
    subst hnil
    rfl
  | succ fuel ih =>
    intro ms h
    show (CubeSolver.optimizePass
      (if (CubeSolver.optimizePass ms).2 then
        CubeSolver.optimizeLoop fuel (CubeSolver.optimizePass ms).1
      else (CubeSolver.optimizePass ms).1)).2 = false
    cases hch : (CubeSolver.optimizePass ms).2 with
    | false =>
      rw [if_neg (by simp [hch])]
      rw [optimizePass_unchanged ms hch]
      exact hch
    | true =>
      rw [if_pos (by simp [hch])]
      have hlt := (optimizePass_length ms).2 hch
      exact ih _ (by omega)

/-- A pass fixed point is stationary under the loop. -/
theorem optimizeLoop_stat (fuel : Nat) (ms : List Str)
    (h : (CubeSolver.optimizePass ms).2 = false) :
    CubeSolver.optimizeLoop fuel ms = ms := by
  cases fuel with
  | zero => rfl
  | succ fuel =>
    show (if (CubeSolver.optimizePass ms).2 then
        CubeSolver.optimizeLoop fuel (CubeSolver.optimizePass ms).1
      else (CubeSolver.optimizePass ms).1) = ms
    rw [if_neg (by simp [h])]
    exact optimizePass_unchanged ms h

/-- The loop preserves the sticker semantics. -/
theorem optimizeLoop_sem : ∀ (fuel : Nat) (ms : List Str),
    (∀ m ∈ ms, WFMove m) → ∀ fs : Faces,
      applyTokensFaces (CubeSolver.optimizeLoop fuel ms) fs = applyTokensFaces ms fs := by
  intro fuel
  induction fuel with
  | zero => intro ms _ fs; rfl
  | succ fuel ih =>
    intro ms hwf fs
    show applyTokensFaces
      (if (CubeSolver.optimizePass ms).2 then
        CubeSolver.optimizeLoop fuel (CubeSolver.optimizePass ms).1
      else (CubeSolver.optimizePass ms).1) fs = _
    cases hch : (CubeSolver.optimizePass ms).2 with
    | false =>
      rw [if_neg (by simp [hch])]
      exact optimizePass_sem ms hwf fs
    | true =>
      rw [if_pos (by simp [hch])]
      rw [ih _ (optimizePass_wf ms hwf) fs]
      exact optimizePass_sem ms hwf fs

/-- The loop preserves well-formedness of every token. -/
theorem optimizeLoop_wf : ∀ (fuel : Nat) (ms : List Str),
    (∀ m ∈ ms, WFMove m) → ∀ m ∈ CubeSolver.optimizeLoop fuel ms, WFMove m := by
  intro fuel
  induction fuel with
  | zero => intro ms hwf; exact hwf
  | succ fuel ih =>
    intro ms hwf
    show ∀ m ∈ (if (CubeSolver.optimizePass ms).2 then
        CubeSolver.optimizeLoop fuel (CubeSolver.optimizePass ms).1
      else (CubeSolver.optimizePass ms).1), WFMove m
    cases hch : (CubeSolver.optimizePass ms).2 with
    | false =>
      rw [if_neg (by simp [hch])]
      exact optimizePass_wf ms hwf
    | true =>
      rw [if_pos (by simp [hch])]
      exact ih _ (optimizePass_wf ms hwf)

/-- The loop preserves nonemptiness and space-freeness of every token. -/
theorem optimizeLoop_tok : ∀ (fuel : Nat) (ms : List Str),
    (∀ m ∈ ms, m ≠ [] ∧ ' ' ∉ m) →
      ∀ m ∈ CubeSolver.optimizeLoop fuel ms, m ≠ [] ∧ ' ' ∉ m := by
  intro fuel
  induction fuel with
  | zero => intro ms htok; exact htok
  | succ fuel ih =>
    intro ms htok
    show ∀ m ∈ (if (CubeSolver.optimizePass ms).2 then
        CubeSolver.optimizeLoop fuel (CubeSolver.optimizePass ms).1
      else (CubeSolver.optimizePass ms).1), m ≠ [] ∧ ' ' ∉ m
    cases hch : (CubeSolver.optimizePass ms).2 with
    | false =>
      rw [if_neg (by simp [hch])]
      exact optimizePass_tok ms htok
    | true =>
      rw [if_pos (by simp [hch])]
      exact ih _ (optimizePass_tok ms htok)

/-- Space-freeness in membership form implies the boolean separator
test fails on every character. -/
theorem tokprop_to_sepfree (m : Str) (h : ' ' ∉ m) :
    ∀ ch ∈ m, (ch == ' ') = false := by
  intro ch hch
  exact beq_eq_false_iff_ne.mpr (fun hc => h (hc ▸ hch))

theorem sepfree_to_tokprop (m : Str) (h : ∀ ch ∈ m, (ch == ' ') = false) :
    ' ' ∉ m := by
  intro hmem
  simpa using h ' ' hmem

/-- The `optimizeSolution` of a space-join of well-formed tokens: splitting
its output on whitespace recovers the fixed point of the pass loop, and
the sticker semantics of the output sequence equals that of the input. -/
theorem optimizeSolution_sem (ms : List Str) (hwf : ∀ m ∈ ms, WFMove m) (fs : Faces) :
    applyTokensFaces
        (splitTokens Char.isWhitespace (CubeSolver.optimizeSolution (joinSep ' ' ms))) fs =
      applyTokensFaces ms fs := by
  match ms with
  | [] => rfl
  | m :: rest =>
    have hm := wf_chars m (hwf m (by simp))
    have hne : joinSep ' ' (m :: rest) ≠ [] := joinSep_ne_nil ' ' m rest hm.1
    have hrt : splitTokens (fun ch => ch == ' ') (joinSep ' ' (m :: rest)) = m :: rest := by
      apply splitTokens_joinSep _ ' ' (by simp)
      intro x hx
      obtain ⟨h1, h2⟩ := wf_chars x (hwf x hx)
      exact ⟨h1, fun ch hch => (h2 ch hch).2⟩
    have hout := optimizeLoop_wf (m :: rest).length (m :: rest) hwf
    have hrt2 : splitTokens Char.isWhitespace
        (joinSep ' ' (CubeSolver.optimizeLoop (m :: rest).length (m :: rest))) =
        CubeSolver.optimizeLoop (m :: rest).length (m :: rest) := by
      apply splitTokens_joinSep _ ' ' (by simp)
      intro x hx
      obtain ⟨h1, h2⟩ := wf_chars x (hout x hx)
      exact ⟨h1, fun ch hch => (h2 ch hch).1⟩
    simp only [CubeSolver.optimizeSolution, if_neg hne, hrt]
    rw [hrt2]
    exact optimizeLoop_sem (m :: rest).length (m :: rest) hwf fs

/-! ### Search soundness -/

/-- A successful non-recording `applyMove` updates the faces by
`applyMoveFaces`. -/
theorem applyMove_false_faces (c : CubeState) (mv : Str) (c' : CubeState)
    (h : c.applyMove mv false = some c') :
    applyMoveFaces mv c.faces = some c'.faces := by
  unfold CubeState.applyMove at h
  cases hm : applyMoveFaces mv c.faces with
  | none => rw [hm] at h; exact absurd h (by simp)
  | some fs =>
    rw [hm] at h
    obtain rfl : (⟨fs, c.moveHistory⟩ : CubeState) = c' := by
      simpa using h
    rfl

/-- Soundness of the move loop of `search`: a returned solution string
extends the accumulated one with moves from the iterated list, and the
appended moves drive the state's stickers to a solved configuration. -/
theorem searchMovesWith_sound
    (searchD : CubeState → Str → Option Str → Option Str)
    (hD : ∀ (st : CubeState) (sol : Str) (lm : Option Str) (r : Str),
      searchD st sol lm = some r →
      ∃ ext : List Str, (∀ m ∈ ext, m ∈ CubeSolver.moves) ∧
        r = List.foldl appendMove sol ext ∧
        ∃ fs', applyTokensFaces ext st.faces = some fs' ∧ Faces.solvedB fs' = true) :
    ∀ (mvs : List Str), (∀ m ∈ mvs, m ∈ CubeSolver.moves) →
    ∀ (state : CubeState) (sol : Str) (lm : Option Str) (r : Str),
      searchMovesWith searchD mvs state sol lm = some r →
      ∃ ext : List Str, (∀ m ∈ ext, m ∈ CubeSolver.moves) ∧
        r = List.foldl appendMove sol ext ∧
        ∃ fs', applyTokensFaces ext state.faces = some fs' ∧ Faces.solvedB fs' = true := by
  intro mvs
  induction mvs with
  | nil =>
    intro _ state sol lm r h
    exact absurd h (by simp [searchMovesWith])
  | cons mv rest ih =>
    intro hmvs state sol lm r h
    have hrest : ∀ m ∈ rest, m ∈ CubeSolver.moves := fun x hx => hmvs x (by simp [hx])
    simp only [searchMovesWith] at h
    split at h
    · exact ih hrest state sol lm r h
    · cases happ : state.applyMove mv false with
      | none =>
        simp only [happ] at h
        exact absurd h (by simp)
      | some ns =>
        simp only [happ] at h
        cases hrec : searchD ns (appendMove sol mv) (some mv) with
        | some r' =>
          simp only [hrec, Option.some_inj] at h
          subst h
          obtain ⟨ext, hext, hr, fs', hfs', hsol⟩ :=
            hD ns (appendMove sol mv) (some mv) r' hrec
          refine ⟨mv :: ext, ?_, ?_, fs', ?_, hsol⟩
          · intro x hx
            rcases List.mem_cons.mp hx with rfl | hx
            · exact hmvs x (by simp)
            · exact hext x hx
          · simpa [List.foldl_cons] using hr
          · simp only [applyTokensFaces, applyMove_false_faces state mv ns happ]
            exact hfs'
        | none =>
          simp only [hrec] at h
          exact ih hrest state sol lm r h

/-- Soundness of the depth-limited search. -/
theorem search_sound :
    ∀ (d : Nat) (state : CubeState) (sol : Str) (lm : Option Str) (r : Str),
      CubeSolver.search d state sol lm = some r →
      ∃ ext : List Str, (∀ m ∈ ext, m ∈ CubeSolver.moves) ∧
        r = List.foldl appendMove sol ext ∧
        ∃ fs', applyTokensFaces ext state.faces = some fs' ∧ Faces.solvedB fs' = true := by
  intro d
  induction d with
  | zero =>
    intro state sol lm r h
    simp only [CubeSolver.search] at h
    by_cases hs : state.isSolved = true
    · rw [if_pos (by simp [hs])] at h
      obtain rfl : sol = r := Option.some_inj.mp h
      exact ⟨[], by simp, by simp, state.faces, rfl, hs⟩
    · rw [if_neg (by simpa using hs)] at h
      exact absurd h (by simp)
  | succ d ih =>
    intro state sol lm r h
    simp only [CubeSolver.search] at h
    by_cases hest : CubeSolver.estimateMoves state > d + 1
    · rw [if_pos hest] at h
      exact absurd h (by simp)
    · rw [if_neg hest] at h
      exact searchMovesWith_sound (CubeSolver.search d) ih CubeSolver.moves
        (fun _ hx => hx) state sol lm r h

/-- Soundness of the iterative-deepening loop: the moves of a returned
solution string solve the caller's sticker configuration. -/
theorem searchDepths_sound :
    ∀ (n : Nat) (c : CubeState) (r : Str),
      CubeSolver.searchDepths c n = some r →
      ∃ ext : List Str, (∀ m ∈ ext, m ∈ CubeSolver.moves) ∧
        r = List.foldl appendMove [] ext ∧
        ∃ fs', applyTokensFaces ext c.faces = some fs' ∧ Faces.solvedB fs' = true := by
  intro n
  induction n with
  | zero =>
    intro c r h
    exact absurd h (by simp [CubeSolver.searchDepths])
  | succ n ih =>
    intro c r h
    simp only [CubeSolver.searchDepths] at h
    cases hd : CubeSolver.searchDepths c n with
    | some r' =>
      simp only [hd, Option.some_inj] at h
      subst h
      exact ih c r' hd
    | none =>
      simp only [hd] at h
      exact search_sound (n + 1) (CubeState.clone c) [] none r h

/-- Accumulating moves with `appendMove` is a space-join. -/
theorem foldl_appendMove :
    ∀ (ext : List Str) (e : Str), e ≠ [] →
      List.foldl appendMove e ext = joinSep ' ' (e :: ext) := by
  intro ext
  induction ext with
  | nil => intro e he; simp [joinSep]
  | cons m tl ih =>
    intro e he
    rw [List.foldl_cons]
    have happ : appendMove e m = e ++ ' ' :: m := by simp [appendMove, he]
    rw [happ, ih (e ++ ' ' :: m) (by simp)]
    cases tl with
    | nil => simp [joinSep]
    | cons t ts => simp [joinSep, List.append_assoc]

/-! ### Move invariants: code-point sum and centres -/

/-- One clockwise quarter turn permutes the 54 stickers, so the sum of
code points is unchanged. -/
theorem applySingleMove_codeSum (f : FaceId) (fs : Faces) :
    (applySingleMove f fs).codeSum = fs.codeSum := by
  cases f <;>
    (simp only [applySingleMove, rotateFaceClockwise, Faces.codeSum, FaceStickers.codeSum]
     omega)

/-- No move operation ever writes a centre sticker (index 4). -/
theorem applySingleMove_centers (f : FaceId) (fs : Faces) :
    (applySingleMove f fs).centers = fs.centers := by
  cases f <;> rfl

theorem iterate_codeSum (f : FaceId) :
    ∀ (n : Nat) (fs : Faces), ((applySingleMove f)^[n] fs).codeSum = fs.codeSum := by
  intro n
  induction n with
  | zero => intro fs; rfl
  | succ n ih =>
    intro fs
    rw [Function.iterate_succ_apply]
    rw [ih (applySingleMove f fs), applySingleMove_codeSum]

theorem iterate_centers (f : FaceId) :
    ∀ (n : Nat) (fs : Faces), ((applySingleMove f)^[n] fs).centers = fs.centers := by
  intro n
  induction n with
  | zero => intro fs; rfl
  | succ n ih =>
    intro fs
    rw [Function.iterate_succ_apply]
    rw [ih (applySingleMove f fs), applySingleMove_centers]

/-- Any successful move application preserves the code-point sum and
the centres. -/
theorem applyMoveFaces_inv (m : Str) (fs fs' : Faces)
    (h : applyMoveFaces m fs = some fs') :
    fs'.codeSum = fs.codeSum ∧ fs'.centers = fs.centers := by
  match m with
  | [] => exact absurd h (by simp [applyMoveFaces])
  | ch :: tl =>
    simp only [applyMoveFaces, List.head?] at h
    cases hp : parseFace ch with
    | none =>
      simp only [hp] at h
      exact absurd h (by simp)
    | some f =>
      simp only [hp, Option.some_inj] at h
      subst h
      exact ⟨iterate_codeSum f _ fs, iterate_centers f _ fs⟩

/-- Any successful token-chain application preserves the code-point sum
and the centres. -/
theorem applyTokensFaces_inv :
    ∀ (ms : List Str) (fs fs' : Faces), applyTokensFaces ms fs = some fs' →
      fs'.codeSum = fs.codeSum ∧ fs'.centers = fs.centers := by
  intro ms
  induction ms with
  | nil =>
    intro fs fs' h
    obtain rfl : fs = fs' := Option.some_inj.mp h
    exact ⟨rfl, rfl⟩
  | cons m ms ih =>
    intro fs fs' h
    simp only [applyTokensFaces] at h
    cases hm : applyMoveFaces m fs with
    | none => rw [hm] at h; exact absurd h (by simp)
    | some fs1 =>
      rw [hm] at h
      obtain ⟨h1, h2⟩ := applyMoveFaces_inv m fs fs1 hm
      obtain ⟨h3, h4⟩ := ih fs1 fs' h
      exact ⟨h3.trans h1, h4.trans h2⟩

/-- A uniform face contributes nine copies of its centre sticker to the
code-point sum. -/
theorem uniform_codeSum_center (f : FaceStickers) (h : f.uniform = true) :
    f.codeSum = 9 * f.s4.toNat := by
  obtain ⟨s0, s1, s2, s3, s4, s5, s6, s7, s8⟩ := f
  simp only [FaceStickers.uniform, Bool.and_eq_true, beq_iff_eq] at h
  obtain ⟨⟨⟨⟨⟨⟨⟨⟨-, h1⟩, h2⟩, h3⟩, h4⟩, h5⟩, h6⟩, h7⟩, h8⟩ := h
  subst h1 h2 h3 h4 h5 h6 h7 h8
  simp only [FaceStickers.codeSum]
  omega

/-- A solved configuration with the canonical centres has the canonical
code-point sum. -/
theorem solved_centers_codeSum (fs : Faces) (hsol : fs.solvedB = true)
    (hc : fs.centers = ('W', 'Y', 'G', 'B', 'O', 'R')) : fs.codeSum = 4266 := by
  simp only [Faces.solvedB, Bool.and_eq_true] at hsol
  obtain ⟨⟨⟨⟨⟨hU, hD⟩, hF⟩, hB⟩, hL⟩, hR⟩ := hsol
  simp only [Faces.centers, Prod.mk.injEq] at hc
  obtain ⟨hcU, hcD, hcF, hcB, hcL, hcR⟩ := hc
  simp only [Faces.codeSum, uniform_codeSum_center _ hU, uniform_codeSum_center _ hD,
    uniform_codeSum_center _ hF, uniform_codeSum_center _ hB,
    uniform_codeSum_center _ hL, uniform_codeSum_center _ hR,
    hcU, hcD, hcF, hcB, hcL, hcR]
  decide

/-- No move sequence whatsoever solves `weirdFaces`: its code-point sum
is off by one from the only sum a solved canonically-centred
configuration can have. -/
theorem weird_not_solvable (ext : List Str) (fs' : Faces)
    (h : applyTokensFaces ext weirdFaces = some fs') : Faces.solvedB fs' = false := by
  cases hs : Faces.solvedB fs' with
  | false => rfl
  | true =>
    exfalso
    obtain ⟨h1, h2⟩ := applyTokensFaces_inv ext weirdFaces fs' h
    have hsum : fs'.codeSum = 4267 := by
      rw [h1]; decide
    have hcen : fs'.centers = ('W', 'Y', 'G', 'B', 'O', 'R') := by
      rw [h2]; decide
    have := solved_centers_codeSum fs' hs hcen
    omega

/-- The iterative-deepening loop fails at every depth on `weirdState`. -/
theorem weird_searchDepths : CubeSolver.searchDepths weirdState 20 = none := by
  cases hd : CubeSolver.searchDepths weirdState 20 with
  | none => rfl
  | some r =>
    obtain ⟨ext, -, -, fs', hfs', hsol⟩ := searchDepths_sound 20 weirdState r hd
    have := weird_not_solvable ext fs' hfs'
    rw [this] at hsol
    exact absurd hsol (by simp)

/-- The `solve` function returns the empty string on the unsolvable, history-free
`weirdState`. -/
theorem weird_solve : CubeSolver.solve weirdState = [] := by
  have hns : weirdState.isSolved = false := by decide
  simp only [CubeSolver.solve, hns, weird_searchDepths, Bool.false_eq_true, if_false]
  simp [weirdState]

/-! ### The tracked caller instance -/

theorem searchDepthsTracked_eq :
    ∀ (n : Nat) (c : CubeState),
      CubeSolver.searchDepthsTracked c n = (CubeSolver.searchDepths c n, c) := by
  intro n
  induction n with
  | zero => intro c; rfl
  | succ n ih =>
    intro c
    simp only [CubeSolver.searchDepthsTracked, CubeSolver.searchDepths, ih]
    cases CubeSolver.searchDepths c n <;> rfl

theorem solveTracked_eq (c : CubeState) :
    CubeSolver.solveTracked c = (CubeSolver.solve c, c) := by
  simp only [CubeSolver.solveTracked, CubeSolver.solve, CubeState.isSolvedM,
    searchDepthsTracked_eq, CubeState.historyM]
  by_cases hs : c.isSolved = true
  · simp [hs]
  · simp only [hs, Bool.false_eq_true, if_false]
    cases CubeSolver.searchDepths c 20 with
    | none => by_cases hh : 0 < c.moveHistory.length <;> simp [hh]
    | some r => simp

/-! ### Centre preservation at the `CubeState` level -/

/-- Any successful `applyMove` (recording or not) preserves the centre
stickers. -/
theorem applyMove_centers (c : CubeState) (mv : Str) (rh : Bool) (c' : CubeState)
    (h : c.applyMove mv rh = some c') : c'.faces.centers = c.faces.centers := by
  unfold CubeState.applyMove at h
  cases hm : applyMoveFaces mv c.faces with
  | none => rw [hm] at h; exact absurd h (by simp)
  | some fs =>
    rw [hm] at h
    obtain rfl : (⟨fs, if rh then c.moveHistory ++ [mv] else c.moveHistory⟩ : CubeState) = c' := by
      simpa using h
    exact (applyMoveFaces_inv mv c.faces fs hm).2

/-- Any successful token chain preserves the centre stickers. -/
theorem applyTokens_centers :
    ∀ (ms : List Str) (rh : Bool) (c c' : CubeState),
      applyTokens ms rh c = some c' → c'.faces.centers = c.faces.centers := by
  intro ms
  induction ms with
  | nil =>
    intro rh c c' h
    obtain rfl : c = c' := Option.some_inj.mp h
    rfl
  | cons m ms ih =>
    intro rh c c' h
    simp only [applyTokens] at h
    cases hm : c.applyMove m rh with
    | none => rw [hm] at h; exact absurd h (by simp)
    | some c1 =>
      rw [hm] at h
      exact (ih rh c1 c' h).trans (applyMove_centers c m rh c1 hm)

/-! ### Valid-face tokens never fault -/

/-- A token whose first character is a valid face key applies
successfully whatever its modifier is. -/
theorem validFaceTok_apply (m : Str) (h : validFaceTok m = true) (fs : Faces) :
    ∃ fs', applyMoveFaces m fs = some fs' := by
  unfold validFaceTok at h
  cases hh : m.head? with
  | none =>
    simp only [hh] at h
    exact absurd h (by simp)
  | some ch =>
    simp only [hh] at h
    cases hp : parseFace ch with
    | none =>
      simp only [hp, Option.isSome_none] at h
      exact absurd h (by simp)
    | some f =>
      refine ⟨(applySingleMove f)^[moveTimes (m.drop 1)] fs, ?_⟩
      simp [applyMoveFaces, hh, hp]

/-- A chain of valid-face tokens never faults. -/
theorem validFaceTok_tokens :
    ∀ (ms : List Str) (rh : Bool) (c : CubeState),
      (∀ m ∈ ms, validFaceTok m = true) → (applyTokens ms rh c).isSome = true := by
  intro ms
  induction ms with
  | nil => intro rh c _; rfl
  | cons m ms ih =>
    intro rh c h
    obtain ⟨fs', hfs'⟩ := validFaceTok_apply m (h m (by simp)) c.faces
    simp only [applyTokens, CubeState.applyMove, hfs']
    exact ih rh _ (fun x hx => h x (by simp [hx]))

/-! ### Scramble structure -/

/-- Every face-pool letter with every modifier-pool modifier forms one
of the 18 move tokens. -/
theorem scrambleTok_wf : ∀ (d : Fin 6) (m : Fin 3),
    ([faceAt d] ++ modAt m) ∈ CubeSolver.moves := by
  decide

/-- What the retry loop guarantees about the face it accepts. -/
theorem drawFace_spec :
    ∀ (fd : List (Fin 6)) (lf slf face : Str) (fd' : List (Fin 6)),
      drawFace fd lf slf = some (face, fd') →
      (∃ d : Fin 6, face = [faceAt d]) ∧ face ≠ lf ∧
        ¬(face = slf ∧ isOppositeFace lf slf = true) := by
  intro fd
  induction fd with
  | nil => intro lf slf face fd' h; exact absurd h (by simp [drawFace])
  | cons d rest ih =>
    intro lf slf face fd' h
    simp only [drawFace] at h
    split at h
    · exact ih lf slf face fd' h
    · rename_i hcond
      simp only [Option.some_inj, Prod.mk.injEq] at h
      obtain ⟨hface, -⟩ := h
      subst hface
      refine ⟨⟨d, rfl⟩, ?_, ?_⟩
      · intro heq
        exact hcond (by simp [heq])
      · rintro ⟨heq, hopp⟩
        exact hcond (by simp [heq, hopp])

/-- Everything the scramble loop guarantees about its token list:
length, token shape, and the two adjacency constraints. -/
theorem scrambleGo_spec :
    ∀ (n : Nat) (fd : List (Fin 6)) (md : List (Fin 3)) (lf slf : Str) (ms : List Str),
      scrambleGo n fd md lf slf = some ms →
      ms.length = n ∧ (∀ m ∈ ms, m ∈ CubeSolver.moves) ∧ scrambleFacesOK lf slf ms := by
  intro n
  induction n with
  | zero =>
    intro fd md lf slf ms h
    obtain rfl : ([] : List Str) = ms := Option.some_inj.mp h
    exact ⟨rfl, by simp, trivial⟩
  | succ n ih =>
    intro fd md lf slf ms h
    simp only [scrambleGo] at h
    cases hdf : drawFace fd lf slf with
    | none => rw [hdf] at h; exact absurd h (by simp)
    | some p =>
      obtain ⟨face, fd'⟩ := p
      simp only [hdf] at h
      cases md with
      | nil => exact absurd h (by simp)
      | cons m md' =>
        cases hgo : scrambleGo n fd' md' face lf with
        | none =>
          simp only [hgo] at h
          exact absurd h (by simp)
        | some tl =>
          simp only [hgo, Option.some_inj] at h
          subst h
          obtain ⟨⟨d, rfl⟩, hd2, hd3⟩ := drawFace_spec fd lf slf face fd' hdf
          obtain ⟨hl, hwf, hok⟩ := ih fd' md' [faceAt d] lf tl hgo
          have htake : ([faceAt d] ++ modAt m).take 1 = [faceAt d] := rfl
          refine ⟨by simp [hl], ?_, ?_⟩
          · intro x hx
            rcases List.mem_cons.mp hx with rfl | hx
            · exact scrambleTok_wf d m
            · exact hwf x hx
          · exact ⟨htake ▸ hd2, htake ▸ hd3, htake ▸ hok⟩

/-- When the iterative deepening finds a raw solution, the optimized
string that `solve` returns really solves a clone of the input. -/
theorem solve_found_solves (c : CubeState) (hns : c.isSolved = false) (r : Str)
    (hd : CubeSolver.searchDepths c 20 = some r) :
    ∃ c', (CubeState.clone c).applyMoves (CubeSolver.solve c) true = some c' ∧
      c'.isSolved = true := by
  obtain ⟨ext, hext, hr, fs', hfs', hsol⟩ := searchDepths_sound 20 c r hd
  have hsolve : CubeSolver.solve c = CubeSolver.optimizeSolution r := by
    simp [CubeSolver.solve, hns, hd]
  cases ext with
  | nil =>
    exfalso
    obtain rfl : c.faces = fs' := Option.some_inj.mp hfs'
    have hsolved : c.isSolved = true := hsol
    rw [hns] at hsolved
    exact Bool.false_ne_true hsolved
  | cons e ext' =>
    have hwf : ∀ m ∈ e :: ext', WFMove m := hext
    have hejoin : r = joinSep ' ' (e :: ext') := by
      rw [hr, List.foldl_cons, show appendMove [] e = e from by simp [appendMove],
        foldl_appendMove ext' e (wf_chars e (hext e (by simp))).1]
    have hsem := optimizeSolution_sem (e :: ext') hwf c.faces
    rw [← hejoin, hfs'] at hsem
    have hfacemap := applyTokens_faces
      (splitTokens Char.isWhitespace (CubeSolver.optimizeSolution r)) true (CubeState.clone c)
    rw [show (CubeState.clone c).faces = c.faces from rfl, hsem] at hfacemap
    cases happT : applyTokens
        (splitTokens Char.isWhitespace (CubeSolver.optimizeSolution r)) true
        (CubeState.clone c) with
    | none =>
      rw [happT] at hfacemap
      exact absurd hfacemap (by simp)
    | some c' =>
      rw [happT] at hfacemap
      have hcf : c'.faces = fs' := by simpa using hfacemap
      refine ⟨c', ?_, ?_⟩
      · rw [hsolve]
        exact happT
      · show c'.faces.solvedB = true
        rw [hcf]
        exact hsol

/-! ### Claims -/

/-- C1 (counterexample): the claim's three cases are not exhaustive.
`weirdState` is not solved, the search fails at every depth bound up to
20, the recorded history is empty — and `solve` returns the empty
string, which applied to a clone of the input leaves it unsolved, so
none of the claim's three disjuncts holds at this input. -/
theorem C1_counterexample :
    CubeSolver.solve weirdState = [] ∧
    weirdState.isSolved = false ∧
    weirdState.moveHistory = [] ∧
    ((CubeState.clone weirdState).applyMoves (CubeSolver.solve weirdState) true).map
      CubeState.isSolved = some false := by
  refine ⟨weird_solve, by decide, rfl, ?_⟩
  rw [weird_solve]
  decide

/-- C1 (amended): `solve` returns the empty string on an already-solved
input without invoking the search; otherwise, when some depth bound
from 1 to 20 succeeds, a space-separated move string that applied to a
clone of the input yields a state with `isSolved()` true; otherwise,
when the input carries a non-empty `moveHistory`, the inverse of that
recorded history; otherwise (search exhausted and no history) the empty
string. -/
theorem C1_solve_contract (c : CubeState) :
    (c.isSolved = true ∧ CubeSolver.solve c = []) ∨
    (∃ c', (CubeState.clone c).applyMoves (CubeSolver.solve c) true = some c' ∧
      c'.isSolved = true) ∨
    (CubeSolver.searchDepths c 20 = none ∧ c.isSolved = false ∧ c.moveHistory ≠ [] ∧
      CubeSolver.solve c = CubeState.invertMoves (joinSep ' ' c.moveHistory)) ∨
    (CubeSolver.searchDepths c 20 = none ∧ c.isSolved = false ∧ c.moveHistory = [] ∧
      CubeSolver.solve c = []) := by
  by_cases hs : c.isSolved = true
  · exact Or.inl ⟨hs, by simp [CubeSolver.solve, hs]⟩
  · have hns : c.isSolved = false := by
      cases h : c.isSolved
      · rfl
      · exact absurd h hs
    cases hd : CubeSolver.searchDepths c 20 with
    | some r => exact Or.inr (Or.inl (solve_found_solves c hns r hd))
    | none =>
      cases hh : c.moveHistory with
      | nil =>
        refine Or.inr (Or.inr (Or.inr ⟨rfl, hns, rfl, ?_⟩))
        simp [CubeSolver.solve, hns, hd, hh]
      | cons x xs =>
        refine Or.inr (Or.inr (Or.inl ⟨rfl, hns, by simp, ?_⟩))
        simp [CubeSolver.solve, hns, hd, hh]

/-- C2 (counterexample): a token whose first character is not a face
key faults — `this.faces['X']` is `undefined` and indexing it throws —
so `applyMoves` does not handle every malformed token silently. -/
theorem C2_counterexample :
    CubeState.initial.applyMoves ['X'] true = none := by
  decide

/-- C2 (amended): `applyMoves` never faults on an input string all of
whose whitespace-split tokens begin with a valid face letter: empty
tokens are filtered out by the split and an unrecognized modifier falls
through to a quarter turn; only an invalid face letter raises. -/
theorem C2_applyMoves_no_fault (s : Str) (rh : Bool) (c : CubeState)
    (h : ∀ m ∈ splitTokens Char.isWhitespace s, validFaceTok m = true) :
    (c.applyMoves s rh).isSome = true :=
  validFaceTok_tokens (splitTokens Char.isWhitespace s) rh c h

/-- Witness for C2: `"U  F3"` — extra whitespace and a malformed
modifier — still applies without fault. -/
theorem C2_applyMoves_no_fault_witness :
    (∀ m ∈ splitTokens Char.isWhitespace ['U', ' ', ' ', 'F', '3'], validFaceTok m = true) ∧
    (CubeState.initial.applyMoves ['U', ' ', ' ', 'F', '3'] true).isSome = true :=
  ⟨by decide,
   C2_applyMoves_no_fault ['U', ' ', ' ', 'F', '3'] true CubeState.initial (by decide)⟩

/-- C3: for every face, the clockwise quarter turn is a bijection of
the 54-sticker configuration, and four consecutive applications return
the configuration exactly to its value before the four turns. -/
theorem C3_quarter_turn_order_four (f : FaceId) :
    Function.Bijective (applySingleMove f) ∧
    ∀ fs : Faces,
      applySingleMove f (applySingleMove f (applySingleMove f (applySingleMove f fs))) = fs := by
  refine ⟨Function.bijective_iff_has_inverse.mpr ?_, applySingleMove_four f⟩
  refine ⟨fun fs => applySingleMove f (applySingleMove f (applySingleMove f fs)), ?_, ?_⟩
  · intro fs
    exact applySingleMove_four f fs
  · intro fs
    exact applySingleMove_four f fs

/-- C4: applying a sequence of well-formed move tokens and then
applying `invertMoves` of it (reversed order, each token inverted by
none ↔ `'` and `2` ↦ `2`) returns the sticker configuration exactly to
its value before the sequence. -/
theorem C4_invertMoves_roundtrip (ms : List Str) (c : CubeState)
    (hwf : ∀ m ∈ ms, WFMove m) :
    ((c.applyMoves (joinSep ' ' ms) true).bind
        (fun c1 => c1.applyMoves (CubeState.invertMoves (joinSep ' ' ms)) true)).map
      CubeState.faces = some c.faces := by
  have hrt : splitTokens Char.isWhitespace (joinSep ' ' ms) = ms :=
    splitTokens_joinSep _ ' ' (by simp) ms
      (fun m hm => ⟨(wf_chars m (hwf m hm)).1,
        fun ch hch => ((wf_chars m (hwf m hm)).2 ch hch).1⟩)
  have hwfinv : ∀ m ∈ (ms.reverse).map CubeState.invertMove, WFMove m := by
    intro m hm
    obtain ⟨x, hx, rfl⟩ := List.mem_map.mp hm
    exact invertMove_wf x (hwf x (List.mem_reverse.mp hx))
  have hinv : CubeState.invertMoves (joinSep ' ' ms) =
      joinSep ' ' ((ms.reverse).map CubeState.invertMove) := by
    unfold CubeState.invertMoves
    rw [hrt]
  have hrt2 : splitTokens Char.isWhitespace
      (joinSep ' ' ((ms.reverse).map CubeState.invertMove)) =
      (ms.reverse).map CubeState.invertMove :=
    splitTokens_joinSep _ ' ' (by simp) _
      (fun m hm => ⟨(wf_chars m (hwfinv m hm)).1,
        fun ch hch => ((wf_chars m (hwfinv m hm)).2 ch hch).1⟩)
  obtain ⟨fs', hfs'⟩ := wf_tokens_some ms hwf c.faces
  have hback := tokens_inverse ms hwf c.faces fs' hfs'
  rw [applyMoves_eq_applyTokens, hrt]
  have h1 := applyTokens_faces ms true c
  rw [hfs'] at h1
  cases ht : applyTokens ms true c with
  | none => rw [ht] at h1; exact absurd h1 (by simp)
  | some c1 =>
    rw [ht] at h1
    have hc1 : c1.faces = fs' := by simpa using h1
    show (c1.applyMoves (CubeState.invertMoves (joinSep ' ' ms)) true).map
      CubeState.faces = some c.faces
    rw [hinv, applyMoves_eq_applyTokens, hrt2]
    have h2 := applyTokens_faces ((ms.reverse).map CubeState.invertMove) true c1
    rw [hc1, hback] at h2
    exact h2

/-- Witness for C4: `"R U2"` then its inverse `"U2 R'"` restores the
solved configuration. -/
theorem C4_invertMoves_roundtrip_witness :
    (∀ m ∈ [['R'], ['U', '2']], WFMove m) ∧
    ((CubeState.initial.applyMoves (joinSep ' ' [['R'], ['U', '2']]) true).bind
        (fun c1 =>
          c1.applyMoves (CubeState.invertMoves (joinSep ' ' [['R'], ['U', '2']])) true)).map
      CubeState.faces = some CubeState.initial.faces :=
  ⟨by decide, C4_invertMoves_roundtrip [['R'], ['U', '2']] CubeState.initial (by decide)⟩

/-- C5: on a string of well-formed move tokens, `optimizeSolution`
produces a string whose application yields the same 54-sticker
configuration as applying the original string. -/
theorem C5_optimize_equivalent (ms : List Str) (c : CubeState)
    (hwf : ∀ m ∈ ms, WFMove m) :
    ((c.applyMoves (CubeSolver.optimizeSolution (joinSep ' ' ms)) true).map
        CubeState.faces) =
      ((c.applyMoves (joinSep ' ' ms) true).map CubeState.faces) := by
  have hrt : splitTokens Char.isWhitespace (joinSep ' ' ms) = ms :=
    splitTokens_joinSep _ ' ' (by simp) ms
      (fun m hm => ⟨(wf_chars m (hwf m hm)).1,
        fun ch hch => ((wf_chars m (hwf m hm)).2 ch hch).1⟩)
  rw [applyMoves_eq_applyTokens, applyMoves_eq_applyTokens,
    applyTokens_faces, applyTokens_faces,
    optimizeSolution_sem ms hwf c.faces, hrt]

/-- Witness for C5: `optimize("U U2") = "U'"` transforms the solved
state exactly as `"U U2"` does. -/
theorem C5_optimize_equivalent_witness :
    (∀ m ∈ [['U'], ['U', '2']], WFMove m) ∧
    ((CubeState.initial.applyMoves
        (CubeSolver.optimizeSolution (joinSep ' ' [['U'], ['U', '2']])) true).map
      CubeState.faces) =
      ((CubeState.initial.applyMoves (joinSep ' ' [['U'], ['U', '2']]) true).map
        CubeState.faces) :=
  ⟨by decide, C5_optimize_equivalent [['U'], ['U', '2']] CubeState.initial (by decide)⟩

/-- C6: `optimizeSolution` is idempotent on every string. -/
theorem C6_optimize_idempotent (s : Str) :
    CubeSolver.optimizeSolution (CubeSolver.optimizeSolution s) =
      CubeSolver.optimizeSolution s := by
  by_cases hs : s = []
  · subst hs; rfl
  · have htokprops : ∀ m ∈ splitTokens (fun ch => ch == ' ') s, m ≠ [] ∧ ' ' ∉ m := by
      intro m hm
      obtain ⟨h1, h2⟩ := splitTokens_tokens _ s m hm
      exact ⟨h1, sepfree_to_tokprop m h2⟩
    have hopt : CubeSolver.optimizeSolution s =
        joinSep ' ' (CubeSolver.optimizeLoop (splitTokens (fun ch => ch == ' ') s).length
          (splitTokens (fun ch => ch == ' ') s)) := by
      simp only [CubeSolver.optimizeSolution, if_neg hs]
    have houtprops := optimizeLoop_tok (splitTokens (fun ch => ch == ' ') s).length _ htokprops
    have hfix := optimizeLoop_fix (splitTokens (fun ch => ch == ' ') s).length _ (Nat.le_refl _)
    cases hout : CubeSolver.optimizeLoop (splitTokens (fun ch => ch == ' ') s).length
        (splitTokens (fun ch => ch == ' ') s) with
    | nil =>
      rw [hopt, hout]
      rfl
    | cons o out' =>
      rw [hopt, hout]
      have ho := houtprops o (by rw [hout]; simp)
      have hne : joinSep ' ' (o :: out') ≠ [] := joinSep_ne_nil ' ' o out' ho.1
      simp only [CubeSolver.optimizeSolution, if_neg hne]
      have hrt : splitTokens (fun ch => ch == ' ') (joinSep ' ' (o :: out')) = o :: out' := by
        apply splitTokens_joinSep _ ' ' (by simp)
        intro m hm
        have hm' := houtprops m (by rw [hout]; exact hm)
        exact ⟨hm'.1, tokprop_to_sepfree m hm'.2⟩
      rw [hrt, optimizeLoop_stat (o :: out').length (o :: out') (hout ▸ hfix)]

/-- C7: `combineMoves` sums the clockwise-quarter-turn counts of two
same-face tokens modulo 4, mapping 0 to cancellation, 1 to the bare
face, 2 to `face2` and 3 to `face'`; in particular
`optimize("R R R R") = ""` and `optimize("U U2") = "U'"`. -/
theorem C7_combineMoves_spec :
    (∀ (f : Char) (m1 m2 : Str), m1.head? = some f → m2.head? = some f →
      CubeSolver.combineMoves m1 m2 =
        (if (CubeSolver.getMoveCount m1 + CubeSolver.getMoveCount m2) % 4 = 0 then none
         else if (CubeSolver.getMoveCount m1 + CubeSolver.getMoveCount m2) % 4 = 1 then
           some [f]
         else if (CubeSolver.getMoveCount m1 + CubeSolver.getMoveCount m2) % 4 = 2 then
           some [f, '2']
         else some [f, apos])) ∧
    CubeSolver.optimizeSolution ['R', ' ', 'R', ' ', 'R', ' ', 'R'] = [] ∧
    CubeSolver.optimizeSolution ['U', ' ', 'U', '2'] = ['U', apos] := by
  refine ⟨?_, by decide, by decide⟩
  intro f m1 m2 h1 _
  simp [CubeSolver.combineMoves, h1]

/-- Witness for C7: combining `R` with `R` gives `R2` (1+1 = 2 quarter
turns). -/
theorem C7_combineMoves_spec_witness :
    CubeSolver.combineMoves ['R'] ['R'] = some ['R', '2'] := by
  rw [C7_combineMoves_spec.1 'R' ['R'] ['R'] rfl rfl]
  decide

/-- C8: whenever the scramble loop completes on the supplied random
draws, `generateScramble` returns the space-join of exactly `n` tokens,
each one of the 18 face-letter-plus-modifier moves, no token's face
repeating the previous face, and no token's face repeating the face two
back when that face is opposite the previous one. -/
theorem C8_generateScramble_structure (n : Nat) (fd : List (Fin 6)) (md : List (Fin 3))
    (ms : List Str) (h : scrambleGo n fd md [] [] = some ms) :
    CubeState.generateScramble n fd md = some (joinSep ' ' ms) ∧
    ms.length = n ∧ (∀ m ∈ ms, m ∈ CubeSolver.moves) ∧ scrambleFacesOK [] [] ms := by
  obtain ⟨h1, h2, h3⟩ := scrambleGo_spec n fd md [] [] ms h
  exact ⟨by simp [CubeState.generateScramble, h], h1, h2, h3⟩

/-- Witness for C8: three draws (the second face draw is rejected for
repeating `U`) produce the scramble `"U D' F2"`. -/
theorem C8_generateScramble_structure_witness :
    scrambleGo 3 [0, 0, 1, 2] [0, 1, 2] [] [] =
      some [['U'], ['D', apos], ['F', '2']] ∧
    (CubeState.generateScramble 3 [0, 0, 1, 2] [0, 1, 2] =
        some (joinSep ' ' [['U'], ['D', apos], ['F', '2']]) ∧
      ([['U'], ['D', apos], ['F', '2']] : List Str).length = 3 ∧
      (∀ m ∈ [['U'], ['D', apos], ['F', '2']], m ∈ CubeSolver.moves) ∧
      scrambleFacesOK [] [] [['U'], ['D', apos], ['F', '2']]) :=
  ⟨by decide, C8_generateScramble_structure 3 [0, 0, 1, 2] [0, 1, 2] _ (by decide)⟩

/-- C9: `solve` leaves the caller's instance unchanged: threading the
caller's state through every operation the body performs on it returns
it untouched (the search works on clones only), the tracked run
computes exactly `solve`, and `clone` agrees with its source on both
`faces` and `moveHistory` while owning its own copies. -/
theorem C9_solve_preserves_caller (c : CubeState) :
    (CubeSolver.solveTracked c).2 = c ∧
    (CubeSolver.solveTracked c).1 = CubeSolver.solve c ∧
    (CubeState.clone c).faces = c.faces ∧
    (CubeState.clone c).moveHistory = c.moveHistory := by
  rw [solveTracked_eq]
  exact ⟨rfl, rfl, rfl, rfl⟩

/-- C10: in every state reachable from a freshly constructed
`CubeState` by well-formed `applyMove`/`applyMoves` calls, the centre
sticker (index 4) of every face keeps its initial solved colour. -/
theorem C10_centers_invariant (c : CubeState) (h : Reachable c) :
    c.faces.U.s4 = 'W' ∧ c.faces.D.s4 = 'Y' ∧ c.faces.F.s4 = 'G' ∧
    c.faces.B.s4 = 'B' ∧ c.faces.L.s4 = 'O' ∧ c.faces.R.s4 = 'R' := by
  induction h with
  | init => exact ⟨rfl, rfl, rfl, rfl, rfl, rfl⟩
  | move c mv rh c' hreach hwf happ ih =>
    have hc := applyMove_centers c mv rh c' happ
    simp only [Faces.centers, Prod.mk.injEq] at hc
    obtain ⟨h1, h2, h3, h4, h5, h6⟩ := hc
    obtain ⟨i1, i2, i3, i4, i5, i6⟩ := ih
    exact ⟨h1.trans i1, h2.trans i2, h3.trans i3, h4.trans i4, h5.trans i5, h6.trans i6⟩
  | moves c s rh c' hreach hwf happ ih =>
    have hc := applyTokens_centers (splitTokens Char.isWhitespace s) rh c c' happ
    simp only [Faces.centers, Prod.mk.injEq] at hc
    obtain ⟨h1, h2, h3, h4, h5, h6⟩ := hc
    obtain ⟨i1, i2, i3, i4, i5, i6⟩ := ih
    exact ⟨h1.trans i1, h2.trans i2, h3.trans i3, h4.trans i4, h5.trans i5, h6.trans i6⟩

/-- Witness for C10: the freshly constructed state is reachable and its
centres carry the six solved colours. -/
theorem C10_centers_invariant_witness :
    CubeState.initial.faces.U.s4 = 'W' ∧ CubeState.initial.faces.D.s4 = 'Y' ∧
    CubeState.initial.faces.F.s4 = 'G' ∧ CubeState.initial.faces.B.s4 = 'B' ∧
    CubeState.initial.faces.L.s4 = 'O' ∧ CubeState.initial.faces.R.s4 = 'R' :=
  C10_centers_invariant CubeState.initial Reachable.init
